import Mathlib

/-!
# Access control: scope validation, metadata aggregation and the access wrappers

A shallow embedding of `pkg/services/accesscontrol/accesscontrol.go`.

* A Go `string` is a sequence of bytes: `Str` is the list of its bytes, each byte a
  natural number.  `len`, indexing and slicing are the list operations.
* A Go `map[string]V` is an association list read by first match (`mapIndex`),
  written by `mapAssign`, and ranged over by its key list (`mapKeys`).
* Indexing and slicing out of range panic in Go: such operations return `Option`.
-/

namespace Grafana

/-! ## Strings -/

/-- A Go string: its bytes, in order. -/
abbrev Str := List Nat

/-- UTF-8 encoding of one code point, as Go stores a string literal. -/
def utf8EncodeNat (n : Nat) : List Nat :=
  if n < 128 then [n]
  else if n < 2048 then [192 + n / 64, 128 + n % 64]
  else if n < 65536 then [224 + n / 4096, 128 + (n / 64) % 64, 128 + n % 64]
  else [240 + n / 262144, 128 + (n / 4096) % 64, 128 + (n / 64) % 64, 128 + n % 64]

/-- The bytes of a string literal. -/
def bytes (s : String) : Str :=
  s.toList.flatMap (fun c => utf8EncodeNat c.toNat)

/-- The byte `'*'`. -/
def starB : Nat := 42
/-- The byte `'?'`. -/
def questionB : Nat := 63
/-- The byte `':'`. -/
def colonB : Nat := 58
/-- The byte `'/'`. -/
def slashB : Nat := 47

/-- Go `s[:hi]`: panics (`none`) unless `0 ≤ hi ≤ len(s)`. -/
def sliceTo (s : Str) (hi : Int) : Option Str :=
  if 0 ≤ hi ∧ hi ≤ (s.length : Int) then some (s.take hi.toNat) else none

/-- Go `s[i]`: panics (`none`) unless `0 ≤ i < len(s)`. -/
def byteAt (s : Str) (i : Int) : Option Nat :=
  if 0 ≤ i ∧ i < (s.length : Int) then s.get? i.toNat else none

/-- Go `strings.ContainsAny(s, chars)` for a set `chars` of ASCII bytes: some byte of
`s` is one of `chars`. -/
def ContainsAny (s : Str) (chars : Str) : Bool :=
  s.any (fun b => decide (b ∈ chars))

/-- Go `strings.HasPrefix(s, prefix)`:
`len(s) >= len(prefix) && s[0:len(prefix)] == prefix`. -/
def HasPrefix (s pre : Str) : Bool :=
  decide (pre.length ≤ s.length) && decide (s.take pre.length = pre)

/-! ## Maps -/

/-- A Go `map[string]V`. -/
abbrev GoMap (V : Type) := List (Str × V)

/-- Go `v, ok := m[k]`: `none` when `k` is not a key. -/
def mapIndex {V : Type} : GoMap V → Str → Option V
  | [], _ => none
  | (k', v) :: rest, k => if k' = k then some v else mapIndex rest k

/-- Go `m[k] = v`. -/
def mapAssign {V : Type} : GoMap V → Str → V → GoMap V
  | [], k, v => [(k, v)]
  | (k', v') :: rest, k, v =>
    if k' = k then (k, v) :: rest else (k', v') :: mapAssign rest k v

/-- The keys visited by Go `for k := range m`. -/
def mapKeys {V : Type} (m : GoMap V) : List Str :=
  m.map Prod.fst

/-- Go `m[k]` on a `map[string]bool`: the zero value `false` when `k` is not a key. -/
def mapIndexBool (m : GoMap Bool) (k : Str) : Bool :=
  (mapIndex m k).getD false

/-! ## Permissions and scopes -/

/-- A held permission: an action over a scope. -/
structure Permission where
  Action : Str
  Scope : Str
deriving DecidableEq, Repr

/-- Metadata contains user accesses for a given resource,
e.g. `map[string]bool{"create": true, "delete": true}`. -/
abbrev Metadata := GoMap Bool

/-- Modelled from the spec: the helper `Scope(parts ...)` is declared outside
`accesscontrol.go`. The spec gives the scope grammar as "segments joined by `:`"
with `datasources:*` and `datasources:id:*` as the all-scope and all-id-scope of
`datasources`, and the call site `Scope(resource, "id")` is commented
`(resource:id)`: the parts are joined by `':'`. -/
def Scope (parts : List Str) : Str :=
  List.intercalate [colonB] parts

/-- Modelled from the spec: `GetResourceAllScope` is declared outside
`accesscontrol.go`; the spec gives `datasources:*` for `datasources`. -/
def GetResourceAllScope (resource : Str) : Str :=
  Scope [resource, [starB]]

/-- Modelled from the spec: `GetResourceAllIDScope` is declared outside
`accesscontrol.go`; the spec gives `datasources:id:*` for `datasources`. -/
def GetResourceAllIDScope (resource : Str) : Str :=
  Scope [resource, bytes "id", [starB]]

/-! ## `ValidateScope` -/

/-- `ValidateScope`: `none` is a run-time panic of the slice or index expression. -/
def ValidateScope (scope : Str) : Option Bool := do
  let pre ← sliceTo scope ((scope.length : Int) - 1)
  let last ← byteAt scope ((scope.length : Int) - 1)
  -- verify that last char is either ':' or '/' if last character of scope is '*'
  if 0 < pre.length ∧ last = starB then
    let lastChar ← byteAt pre ((pre.length : Int) - 1)
    if lastChar ≠ colonB ∧ lastChar ≠ slashB then
      return false
  return !(ContainsAny pre [starB, questionB])

/-! ## `GetResourcesMetadata` -/

/-- `addActionToMetadata`: record `action` in the metadata of `id`, creating the
metadata when `id` has none yet. -/
def addActionToMetadata (allMetadata : GoMap Metadata) (action id : Str) : GoMap Metadata :=
  match mapIndex allMetadata id with
  | none => mapAssign allMetadata id [(action, true)]
  | some metadata => mapAssign allMetadata id (mapAssign metadata action true)

/-- The body of the loop over the permissions in `GetResourcesMetadata`. -/
def metadataStep (allScope allIDScope idPrefix : Str) (idIndex : Nat)
    (resourceIDs : GoMap Bool) (result : GoMap Metadata) (p : Permission) : GoMap Metadata :=
  if p.Scope = [starB] ∨ p.Scope = allScope ∨ p.Scope = allIDScope then
    -- Add global action to all resources
    (mapKeys resourceIDs).foldl (fun res id => addActionToMetadata res p.Action id) result
  else
    if idIndex < p.Scope.length ∧ HasPrefix p.Scope idPrefix = true
        ∧ mapIndexBool resourceIDs (p.Scope.drop idIndex) = true then
      -- Add action to a specific resource
      addActionToMetadata result p.Action (p.Scope.drop idIndex)
    else result

/-- `GetResourcesMetadata` returns a map of accesscontrol metadata, listing for each
resource the user's available actions. The entries of `permissions` are the pointees
of the non-nil `*Permission` values; the unused `ctx` is left out. -/
def GetResourcesMetadata (permissions : List Permission) (resource : Str)
    (resourceIDs : GoMap Bool) : GoMap Metadata :=
  let allScope := GetResourceAllScope resource
  let allIDScope := GetResourceAllIDScope resource
  -- prefix of ID based scopes (resource:id)
  let idPrefix := Scope [resource, bytes "id"]
  -- index of the ID in the scope
  let idIndex := idPrefix.length + 1
  -- Loop through permissions once
  permissions.foldl (metadataStep allScope allIDScope idPrefix idIndex resourceIDs) []

/-! ## `BuildPermissionsMap` and `GroupScopesByAction` -/

/-- `BuildPermissionsMap`: every action of the list is assigned `true`. -/
def BuildPermissionsMap (permissions : List Permission) : GoMap Bool :=
  permissions.foldl (fun permissionsMap p => mapAssign permissionsMap p.Action true) []

/-- `GroupScopesByAction` will group scopes on action; `m[p.Action]` of an absent key
is the nil slice, to which `append` adds the scope. -/
def GroupScopesByAction (permissions : List Permission) : GoMap (List Str) :=
  permissions.foldl
    (fun m p => mapAssign m p.Action ((mapIndex m p.Action).getD [] ++ [p.Scope])) []

/-! ## The access wrappers -/

/-- A `models.SignedInUser`, whose declaration is outside `accesscontrol.go`: the three
fields written by the wrappers; in `rest` the value of every other field (for a map,
slice or pointer field: the reference); in `shared` the data those references lead to,
which a copy of the struct shares with the original. -/
structure SignedInUser (ρ δ : Type) where
  OrgId : Int
  OrgRole : Str
  OrgName : Str
  rest : ρ
  shared : δ

/-- One call of `c.Logger.Error(msg, key, err)`. -/
structure LogEntry (ε : Type) where
  msg : Str
  key : Str
  err : ε

/-- The parts of `models.ReqContext` the wrappers use: the user `c.SignedInUser` points
to, the context `c.Req.Context()`, and what `c.Logger` has recorded so far. -/
structure ReqContext (ρ δ κ ε : Type) where
  SignedInUser : SignedInUser ρ δ
  Req : κ
  Logger : List (LogEntry ε)

/-- What a call of `Evaluate` leaves behind: the returned pair, the state of the
implementation, and the user its `*models.SignedInUser` argument points to: the fields
of that user after the call and, in `shared`, the data behind the references that user
held when the call was made. -/
structure EvalResult (σ ρ δ ε : Type) where
  hasAccess : Bool
  err : Option ε
  state : σ
  user : SignedInUser ρ δ

/-- The methods of the `AccessControl` interface the wrappers call, over the state
`σ` of the implementation. -/
structure AccessControl (σ ρ δ κ η ε : Type) where
  Evaluate : σ → κ → SignedInUser ρ δ → η → EvalResult σ ρ δ ε
  IsDisabled : σ → Bool

/-- What a call of a wrapper leaves behind: the returned boolean, the request context
and the state of the implementation. -/
structure Outcome (σ ρ δ κ ε : Type) where
  result : Bool
  c : ReqContext ρ δ κ ε
  state : σ

/-- The message the wrappers log. -/
def errorMessage : Str := bytes "Error from access control system"

/-- `HasGlobalAccess` checks user access with globally assigned permissions only.
`GlobalOrgID` is the package constant, declared outside `accesscontrol.go`.
`userCopy := *c.SignedInUser` copies the fields of the user, references included:
`Evaluate` receives `&userCopy`, so what it writes to the fields of its argument is lost
with the copy, and what it writes through the references is written to the data the
user of `c` shares with the copy. -/
def HasGlobalAccess {σ ρ δ κ η ε : Type} (GlobalOrgID : Int) (ac : AccessControl σ ρ δ κ η ε)
    (c : ReqContext ρ δ κ ε) (fallback : ReqContext ρ δ κ ε → Bool) (evaluator : η)
    (st : σ) : Outcome σ ρ δ κ ε :=
  if ac.IsDisabled st then
    ⟨fallback c, c, st⟩
  else
    let userCopy := c.SignedInUser
    let userCopy := { userCopy with OrgId := GlobalOrgID }
    let userCopy := { userCopy with OrgRole := [] }
    let userCopy := { userCopy with OrgName := [] }
    let r := ac.Evaluate st c.Req userCopy evaluator
    let c := { c with SignedInUser := { c.SignedInUser with shared := r.user.shared } }
    match r.err with
    | some err =>
      ⟨false, { c with Logger := c.Logger ++ [⟨errorMessage, bytes "error", err⟩] }, r.state⟩
    | none => ⟨r.hasAccess, c, r.state⟩

/-- `HasAccess`: `Evaluate` receives the pointer `c.SignedInUser` itself, so the user it
leaves behind is the user of `c` afterwards. -/
def HasAccess {σ ρ δ κ η ε : Type} (ac : AccessControl σ ρ δ κ η ε)
    (c : ReqContext ρ δ κ ε) (fallback : ReqContext ρ δ κ ε → Bool) (evaluator : η)
    (st : σ) : Outcome σ ρ δ κ ε :=
  if ac.IsDisabled st then
    ⟨fallback c, c, st⟩
  else
    let r := ac.Evaluate st c.Req c.SignedInUser evaluator
    let c := { c with SignedInUser := r.user }
    match r.err with
    | some err =>
      ⟨false, { c with Logger := c.Logger ++ [⟨errorMessage, bytes "error", err⟩] }, r.state⟩
    | none => ⟨r.hasAccess, c, r.state⟩

/-- The result maps `x` to a metadata in which `a` is `true`. -/
def hasAction (result : GoMap Metadata) (x a : Str) : Prop :=
  ∃ md, mapIndex result x = some md ∧ mapIndex md a = some true

/-- The scope `scope` makes the loop body of `GetResourcesMetadata` add an action to the
ID `x`. -/
def grants (resource : Str) (resourceIDs : GoMap Bool) (scope x : Str) : Prop :=
  if scope = [starB] ∨ scope = GetResourceAllScope resource
      ∨ scope = GetResourceAllIDScope resource then
    x ∈ mapKeys resourceIDs
  else
    (Scope [resource, bytes "id"]).length + 1 < scope.length
      ∧ HasPrefix scope (Scope [resource, bytes "id"]) = true
      ∧ mapIndexBool resourceIDs (scope.drop ((Scope [resource, bytes "id"]).length + 1)) = true
      ∧ scope.drop ((Scope [resource, bytes "id"]).length + 1) = x

/-- Every metadata of the result holds an action, and holds only `true`. -/
def MetadataInv (result : GoMap Metadata) : Prop :=
  ∀ x md, mapIndex result x = some md →
    (∃ a, mapIndex md a = some true) ∧ ∀ a b, mapIndex md a = some b → b = true

/-- An `AccessControl` that is enabled and whose `Evaluate` returns `true` together
with an error. -/
def failingAC : AccessControl Unit Unit (GoMap (List Str)) Unit Unit Str where
  Evaluate := fun st _ user _ => ⟨true, some (bytes "boom"), st, user⟩
  IsDisabled := fun _ => false

/-- A request context of a user of organisation 1; the data its user shares with any
copy is a map of permissions: scopes grouped by action. -/
def sampleContext : ReqContext Unit (GoMap (List Str)) Unit Str :=
  ⟨⟨1, bytes "Admin", bytes "Main Org.", (), [(bytes "users:read", [bytes "users:*"])]⟩,
    (), []⟩

/-- An `AccessControl` instrumented for tests: it behaves as `ac` and records, in
order, the arguments of every call of `Evaluate`. -/
def recording {σ ρ δ κ η ε : Type} (ac : AccessControl σ ρ δ κ η ε) :
    AccessControl (σ × List (κ × SignedInUser ρ δ × η)) ρ δ κ η ε where
  Evaluate := fun st ctx user evaluator =>
    let r := ac.Evaluate st.1 ctx user evaluator
    ⟨r.hasAccess, r.err, (r.state, st.2 ++ [(ctx, user, evaluator)]), r.user⟩
  IsDisabled := fun st => ac.IsDisabled st.1

/-- An `AccessControl` that is disabled; its `Evaluate` would deny. -/
def disabledAC : AccessControl Unit Unit (GoMap (List Str)) Unit Unit Str where
  Evaluate := fun st _ user _ => ⟨false, none, st, user⟩
  IsDisabled := fun _ => true

/-- An `AccessControl` that is enabled and whose `Evaluate` grants, without an error,
after overwriting the organisation fields of the user it is handed. -/
def overwritingAC : AccessControl Unit Unit (GoMap (List Str)) Unit Unit Str where
  Evaluate := fun st _ user _ =>
    ⟨true, none, st,
      { user with OrgId := 99, OrgRole := bytes "Viewer", OrgName := bytes "changed" }⟩
  IsDisabled := fun _ => false

/-- An `AccessControl` that is enabled and whose `Evaluate` grants, without an error,
after writing an entry into the permission map of the user it is handed, through the
reference held by that user. -/
def cachingAC : AccessControl Unit Unit (GoMap (List Str)) Unit Unit Str where
  Evaluate := fun st _ user _ =>
    ⟨true, none, st,
      { user with shared := mapAssign user.shared (bytes "teams:read") [bytes "teams:*"] }⟩
  IsDisabled := fun _ => false

/-- The (action, scope) pairs of a permission list, in order. -/
def permissionPairs (permissions : List Permission) : List (Str × Str) :=
  permissions.map (fun p => (p.Action, p.Scope))

/-- Flattening a grouped map back into (action, scope) pairs: each key paired with each
element of its list. -/
def flattenGroups (m : GoMap (List Str)) : List (Str × Str) :=
  m.flatMap (fun e => e.2.map (fun scope => (e.1, scope)))

/-- The total number of scopes over all keys of a grouped map. -/
def totalScopes (m : GoMap (List Str)) : Nat :=
  (m.map (fun e => e.2.length)).sum

/-- The scopes of the permissions of the list whose action is `a`, in the order of the
list and with duplicates kept. -/
def scopesOfAction (permissions : List Permission) (a : Str) : List Str :=
  (permissions.filter (fun p => decide (p.Action = a))).map (fun p => p.Scope)

/-! ## Lemmas on strings -/

theorem sliceTo_snoc (pre : Str) (last : Nat) :
    sliceTo (pre ++ [last]) (((pre ++ [last]).length : Int) - 1) = some pre := by
  unfold sliceTo
  have h : (((pre ++ [last]).length : Int) - 1) = (pre.length : Int) := by
    simp
  rw [h]
  simp

theorem byteAt_snoc (pre : Str) (last : Nat) :
    byteAt (pre ++ [last]) (((pre ++ [last]).length : Int) - 1) = some last := by
  unfold byteAt
  have h : (((pre ++ [last]).length : Int) - 1) = (pre.length : Int) := by
    simp
  rw [h]
  simp

theorem byteAt_pred_length (pre : Str) (h : pre ≠ []) :
    byteAt pre ((pre.length : Int) - 1) = pre.getLast? := by
  obtain ⟨init, b, rfl⟩ : ∃ init b, pre = init ++ [b] :=
    ⟨pre.dropLast, pre.getLast h, (List.dropLast_append_getLast h).symm⟩
  rw [byteAt_snoc]
  simp

theorem ContainsAny_wild_eq_false (pre : Str) :
    ContainsAny pre [starB, questionB] = false ↔ ∀ b ∈ pre, b ≠ starB ∧ b ≠ questionB := by
  unfold ContainsAny
  simp [List.any_eq_false]

/-- The value of `ValidateScope` on a scope with last byte `last` and the bytes `pre`
before it. -/
theorem ValidateScope_snoc (pre : Str) (last : Nat) :
    ValidateScope (pre ++ [last]) =
      some (if pre ≠ [] ∧ last = starB ∧ pre.getLast? ≠ some colonB
              ∧ pre.getLast? ≠ some slashB then false
            else !(ContainsAny pre [starB, questionB])) := by
  unfold ValidateScope
  rw [sliceTo_snoc, byteAt_snoc]
  by_cases hp : pre = []
  · subst hp
    simp
  · have hlen : 0 < pre.length := List.length_pos.mpr hp
    by_cases hl : last = starB
    · subst hl
      have hb := byteAt_pred_length pre hp
      obtain ⟨c, hc⟩ : ∃ c, pre.getLast? = some c :=
        ⟨pre.getLast hp, List.getLast?_eq_getLast pre hp⟩
      simp only [Option.bind_eq_bind, Option.some_bind, hlen, true_and, hb, hc, if_true]
      by_cases h1 : c = colonB
      · simp [h1, hp, colonB, slashB]
      · by_cases h2 : c = slashB
        · simp [h2, hp, colonB, slashB]
        · simp [h1, h2, hp]
    · simp [hl]

/-! ## Lemmas on maps -/

theorem mapIndex_mapAssign {V : Type} (m : GoMap V) (k k' : Str) (v : V) :
    mapIndex (mapAssign m k v) k' = if k = k' then some v else mapIndex m k' := by
  induction m with
  | nil => simp [mapAssign, mapIndex]
  | cons e rest ih =>
    obtain ⟨k0, v0⟩ := e
    by_cases h0 : k0 = k
    · subst h0
      by_cases h1 : k0 = k' <;> simp [mapAssign, mapIndex, h1]
    · by_cases h1 : k0 = k'
      · subst h1
        have h2 : ¬ k = k0 := fun h => h0 h.symm
        simp [mapAssign, mapIndex, h0, h2]
      · simp [mapAssign, mapIndex, h0, h1, ih]

theorem mem_mapKeys_iff {V : Type} (m : GoMap V) (x : Str) :
    x ∈ mapKeys m ↔ ∃ v, mapIndex m x = some v := by
  induction m with
  | nil => simp [mapKeys, mapIndex]
  | cons e rest ih =>
    obtain ⟨k0, v0⟩ := e
    by_cases h0 : k0 = x
    · subst h0
      simp [mapKeys, mapIndex]
    · have h1 : ¬ x = k0 := fun h => h0 h.symm
      have ih2 : x ∈ List.map Prod.fst rest ↔ ∃ v, mapIndex rest x = some v := ih
      simp only [mapKeys, List.map_cons, List.mem_cons, h1, false_or, mapIndex, h0,
        if_false]
      exact ih2

theorem mapIndexBool_eq_true {m : GoMap Bool} {k : Str} :
    mapIndexBool m k = true ↔ mapIndex m k = some true := by
  unfold mapIndexBool
  cases mapIndex m k <;> simp

/-! ## Lemmas on `GetResourcesMetadata` -/

theorem hasAction_addActionToMetadata (res : GoMap Metadata) (a id x b : Str) :
    hasAction (addActionToMetadata res a id) x b ↔ hasAction res x b ∨ (id = x ∧ a = b) := by
  unfold addActionToMetadata hasAction
  cases h : mapIndex res id with
  | none =>
    by_cases hid : id = x
    · subst hid
      simp [mapIndex_mapAssign, h, mapIndex]
    · simp [mapIndex_mapAssign, hid]
  | some md0 =>
    by_cases hid : id = x
    · subst hid
      by_cases hab : a = b
      · simp [mapIndex_mapAssign, h, hab]
      · simp [mapIndex_mapAssign, h, hab]
    · simp [mapIndex_mapAssign, hid]

theorem hasAction_foldl_add (keys : List Str) (res : GoMap Metadata) (a x b : Str) :
    hasAction (keys.foldl (fun r id => addActionToMetadata r a id) res) x b ↔
      hasAction res x b ∨ (x ∈ keys ∧ a = b) := by
  induction keys generalizing res with
  | nil => simp
  | cons k rest ih =>
    rw [List.foldl_cons, ih, hasAction_addActionToMetadata]
    simp only [List.mem_cons]
    constructor
    · rintro ((h | ⟨h1, h2⟩) | ⟨h1, h2⟩)
      · exact Or.inl h
      · exact Or.inr ⟨Or.inl h1.symm, h2⟩
      · exact Or.inr ⟨Or.inr h1, h2⟩
    · rintro (h | ⟨h1 | h1, h2⟩)
      · exact Or.inl (Or.inl h)
      · exact Or.inl (Or.inr ⟨h1.symm, h2⟩)
      · exact Or.inr ⟨h1, h2⟩

theorem hasAction_metadataStep (resource : Str) (resourceIDs : GoMap Bool)
    (res : GoMap Metadata) (p : Permission) (x b : Str) :
    hasAction (metadataStep (GetResourceAllScope resource) (GetResourceAllIDScope resource)
        (Scope [resource, bytes "id"]) ((Scope [resource, bytes "id"]).length + 1)
        resourceIDs res p) x b ↔
      hasAction res x b ∨ (p.Action = b ∧ grants resource resourceIDs p.Scope x) := by
  unfold metadataStep grants
  by_cases hw : p.Scope = [starB] ∨ p.Scope = GetResourceAllScope resource
      ∨ p.Scope = GetResourceAllIDScope resource
  · rw [if_pos hw, if_pos hw, hasAction_foldl_add]
    tauto
  · rw [if_neg hw, if_neg hw]
    by_cases hc : (Scope [resource, bytes "id"]).length + 1 < p.Scope.length
        ∧ HasPrefix p.Scope (Scope [resource, bytes "id"]) = true
        ∧ mapIndexBool resourceIDs
            (p.Scope.drop ((Scope [resource, bytes "id"]).length + 1)) = true
    · rw [if_pos hc, hasAction_addActionToMetadata]
      tauto
    · rw [if_neg hc]
      tauto

theorem hasAction_foldl_metadataStep (resource : Str) (resourceIDs : GoMap Bool)
    (perms : List Permission) (res : GoMap Metadata) (x b : Str) :
    hasAction (perms.foldl (metadataStep (GetResourceAllScope resource)
        (GetResourceAllIDScope resource) (Scope [resource, bytes "id"])
        ((Scope [resource, bytes "id"]).length + 1) resourceIDs) res) x b ↔
      hasAction res x b ∨
        ∃ p ∈ perms, p.Action = b ∧ grants resource resourceIDs p.Scope x := by
  induction perms generalizing res with
  | nil => simp
  | cons p rest ih =>
    rw [List.foldl_cons, ih, hasAction_metadataStep]
    simp only [List.mem_cons, exists_eq_or_imp]
    tauto

/-- The result of `GetResourcesMetadata` gives `x` the action `b` exactly when the loop
body adds `b` to `x` for some permission. -/
theorem hasAction_GetResourcesMetadata (perms : List Permission) (resource : Str)
    (resourceIDs : GoMap Bool) (x b : Str) :
    hasAction (GetResourcesMetadata perms resource resourceIDs) x b ↔
      ∃ p ∈ perms, p.Action = b ∧ grants resource resourceIDs p.Scope x := by
  unfold GetResourcesMetadata
  simp only
  rw [hasAction_foldl_metadataStep]
  simp [hasAction, mapIndex]

theorem GetResourceAllScope_eq (resource : Str) :
    GetResourceAllScope resource = resource ++ bytes ":*" := by
  have h : bytes ":*" = [58, 42] := by decide
  rw [h]
  simp [GetResourceAllScope, Scope, List.intercalate, colonB, starB]

theorem GetResourceAllIDScope_eq (resource : Str) :
    GetResourceAllIDScope resource = resource ++ bytes ":id:*" := by
  have h : bytes ":id:*" = [58, 105, 100, 58, 42] := by decide
  have h2 : bytes "id" = [105, 100] := by decide
  rw [h]
  simp [GetResourceAllIDScope, Scope, List.intercalate, colonB, starB, h2]

theorem Scope_id_eq (resource : Str) :
    Scope [resource, bytes "id"] = resource ++ bytes ":id" := by
  have h : bytes ":id" = [58, 105, 100] := by decide
  have h2 : bytes "id" = [105, 100] := by decide
  rw [h]
  simp [Scope, List.intercalate, colonB, h2]

/-- A scope that is none of the three wildcard scopes adds an action to `x` exactly when
`x` is non-empty, is mapped to `true` in the batch, and the scope is `resource:id`, one
further byte, and `x`. -/
theorem grants_id_iff (resource : Str) (resourceIDs : GoMap Bool) (scope x : Str)
    (hw : ¬ (scope = [starB] ∨ scope = GetResourceAllScope resource
      ∨ scope = GetResourceAllIDScope resource)) :
    grants resource resourceIDs scope x ↔
      x ≠ [] ∧ mapIndex resourceIDs x = some true ∧
        ∃ c, scope = resource ++ bytes ":id" ++ [c] ++ x := by
  unfold grants
  rw [if_neg hw, Scope_id_eq]
  generalize resource ++ bytes ":id" = P
  constructor
  · rintro ⟨hlen, hpre, hval, hdrop⟩
    have hlt : P.length < scope.length := by omega
    have htake : scope.take P.length = P := by
      unfold HasPrefix at hpre
      simp only [Bool.and_eq_true, decide_eq_true_eq] at hpre
      exact hpre.2
    have hsplit : scope = scope.take P.length ++ [scope[P.length]]
        ++ scope.drop (P.length + 1) := by
      simp
    refine ⟨?_, ?_, scope[P.length], ?_⟩
    · intro hx
      have hl : (scope.drop (P.length + 1)).length = 0 := by
        rw [hdrop, hx]
        rfl
      rw [List.length_drop] at hl
      omega
    · rw [← hdrop]
      exact mapIndexBool_eq_true.mp hval
    · rw [htake, hdrop] at hsplit
      exact hsplit
  · rintro ⟨hx, hval, c, rfl⟩
    have hxl : 0 < x.length := List.length_pos.mpr hx
    have hdrop : List.drop (P.length + 1) (P ++ [c] ++ x) = x := by
      simp
    refine ⟨?_, ?_, ?_, hdrop⟩
    · simp only [List.length_append, List.length_singleton]
      omega
    · unfold HasPrefix
      simp
    · rw [hdrop]
      exact mapIndexBool_eq_true.mpr hval

theorem MetadataInv_nil : MetadataInv [] := by
  intro x md h
  simp [mapIndex] at h

theorem MetadataInv_addActionToMetadata (res : GoMap Metadata) (a id : Str)
    (h : MetadataInv res) : MetadataInv (addActionToMetadata res a id) := by
  intro x md hx
  unfold addActionToMetadata at hx
  cases hid : mapIndex res id with
  | none =>
    rw [hid] at hx
    simp only [mapIndex_mapAssign] at hx
    by_cases hk : id = x
    · rw [if_pos hk] at hx
      cases hx
      refine ⟨⟨a, by simp [mapIndex]⟩, fun a' b hb => ?_⟩
      simp only [mapIndex] at hb
      split at hb
      · cases hb
        rfl
      · cases hb
    · rw [if_neg hk] at hx
      exact h x md hx
  | some md0 =>
    rw [hid] at hx
    simp only [mapIndex_mapAssign] at hx
    by_cases hk : id = x
    · rw [if_pos hk] at hx
      cases hx
      refine ⟨⟨a, by simp [mapIndex_mapAssign]⟩, fun a' b hb => ?_⟩
      rw [mapIndex_mapAssign] at hb
      split at hb
      · cases hb
        rfl
      · exact (h id md0 hid).2 a' b hb
    · rw [if_neg hk] at hx
      exact h x md hx

theorem MetadataInv_foldl_add (keys : List Str) (res : GoMap Metadata) (a : Str)
    (h : MetadataInv res) :
    MetadataInv (keys.foldl (fun r id => addActionToMetadata r a id) res) := by
  induction keys generalizing res with
  | nil => exact h
  | cons k rest ih =>
    rw [List.foldl_cons]
    exact ih _ (MetadataInv_addActionToMetadata res a k h)

theorem MetadataInv_metadataStep (allScope allIDScope idPrefix : Str) (idIndex : Nat)
    (resourceIDs : GoMap Bool) (res : GoMap Metadata) (p : Permission)
    (h : MetadataInv res) :
    MetadataInv (metadataStep allScope allIDScope idPrefix idIndex resourceIDs res p) := by
  unfold metadataStep
  split
  · exact MetadataInv_foldl_add _ res p.Action h
  · split
    · exact MetadataInv_addActionToMetadata res p.Action _ h
    · exact h

theorem MetadataInv_GetResourcesMetadata (perms : List Permission) (resource : Str)
    (resourceIDs : GoMap Bool) :
    MetadataInv (GetResourcesMetadata perms resource resourceIDs) := by
  unfold GetResourcesMetadata
  simp only
  generalize ([] : GoMap Metadata) = res, MetadataInv_nil = hres
  induction perms generalizing res with
  | nil => exact hres
  | cons p rest ih =>
    rw [List.foldl_cons]
    exact ih _ (MetadataInv_metadataStep _ _ _ _ _ res p hres)

/-- Every non-empty scope is its bytes but the last followed by its last byte. -/
theorem exists_snoc_of_ne_nil (s : Str) (hs : s ≠ []) :
    ∃ pre last, s = pre ++ [last] :=
  ⟨s.dropLast, s.getLast hs, (List.dropLast_append_getLast hs).symm⟩

/-! ## `ValidateScope`: lemmas -/

/-- The value of `ValidateScope` on a non-empty scope, by the bytes before the last
and the last byte. -/
theorem ValidateScope_ne_nil (s : Str) (hs : s ≠ []) :
    (ValidateScope s = some true ∨ ValidateScope s = some false) ∧
    (ValidateScope s = some true ↔
      (∀ b ∈ s.dropLast, b ≠ starB ∧ b ≠ questionB) ∧
      (s.getLast? = some starB → s.dropLast ≠ [] →
        s.dropLast.getLast? = some colonB ∨ s.dropLast.getLast? = some slashB)) := by
  obtain ⟨pre, last, rfl⟩ := exists_snoc_of_ne_nil s hs
  rw [ValidateScope_snoc]
  simp only [List.dropLast_concat, List.getLast?_concat, Option.some.injEq]
  by_cases hw : ContainsAny pre [starB, questionB] = false
  · have hw2 := (ContainsAny_wild_eq_false pre).mp hw
    by_cases hc : pre ≠ [] ∧ last = starB ∧ pre.getLast? ≠ some colonB
        ∧ pre.getLast? ≠ some slashB
    · rw [if_pos hc]
      refine ⟨Or.inr rfl, ?_⟩
      constructor
      · intro h
        simp at h
      · rintro ⟨-, h⟩
        rcases h hc.2.1 hc.1 with h | h
        · exact absurd h hc.2.2.1
        · exact absurd h hc.2.2.2
    · rw [if_neg hc, hw]
      refine ⟨Or.inl rfl, ?_⟩
      constructor
      · intro _
        refine ⟨hw2, fun hl hp => ?_⟩
        by_contra hn
        push_neg at hn
        exact hc ⟨hp, hl, hn.1, hn.2⟩
      · intro _
        rfl
  · have hw1 : ContainsAny pre [starB, questionB] = true := by
      simpa using hw
    have hw2 : ¬ ∀ b ∈ pre, b ≠ starB ∧ b ≠ questionB :=
      fun h => hw ((ContainsAny_wild_eq_false pre).mpr h)
    rw [hw1]
    constructor
    · right
      split <;> rfl
    · constructor
      · intro h
        split at h <;> simp at h
      · rintro ⟨h, -⟩
        exact absurd h hw2

/-! ## `GetResourcesMetadata`: where a granted action comes from -/

/-- What a granted action comes from: if the result gives `x` the action `a`, then `x`
is a key of the batch and some permission with action `a` has the scope `*`, `r:*`,
`r:id:*`, or `r:id` followed by one byte and `x`. -/
theorem GetResourcesMetadata_granted_from (perms : List Permission) (r : Str)
    (resourceIDs : GoMap Bool) (x a : Str)
    (h : hasAction (GetResourcesMetadata perms r resourceIDs) x a) :
    (∃ v, mapIndex resourceIDs x = some v) ∧
      ∃ p ∈ perms, p.Action = a ∧
        (p.Scope = bytes "*" ∨ p.Scope = r ++ bytes ":*" ∨ p.Scope = r ++ bytes ":id:*"
          ∨ ∃ c, p.Scope = r ++ bytes ":id" ++ [c] ++ x) := by
  obtain ⟨p, hmem, hact, hg⟩ := (hasAction_GetResourcesMetadata perms r resourceIDs x a).mp h
  by_cases hw : p.Scope = [starB] ∨ p.Scope = GetResourceAllScope r
      ∨ p.Scope = GetResourceAllIDScope r
  · have hkey : x ∈ mapKeys resourceIDs := by
      unfold grants at hg
      rw [if_pos hw] at hg
      exact hg
    refine ⟨(mem_mapKeys_iff resourceIDs x).mp hkey, p, hmem, hact, ?_⟩
    rw [GetResourceAllScope_eq, GetResourceAllIDScope_eq] at hw
    rcases hw with h1 | h1 | h1
    · exact Or.inl h1
    · exact Or.inr (Or.inl h1)
    · exact Or.inr (Or.inr (Or.inl h1))
  · obtain ⟨-, hval, c, hc⟩ := (grants_id_iff r resourceIDs p.Scope x hw).mp hg
    exact ⟨⟨true, hval⟩, p, hmem, hact, Or.inr (Or.inr (Or.inr ⟨c, hc⟩))⟩

/-! ## Lemmas on `BuildPermissionsMap` and `GroupScopesByAction` -/

theorem mapIndex_foldl_assign_true (perms : List Permission) (m : GoMap Bool) (a : Str) :
    mapIndex (perms.foldl (fun permissionsMap p => mapAssign permissionsMap p.Action true) m) a
      = if ∃ p ∈ perms, p.Action = a then some true else mapIndex m a := by
  induction perms generalizing m with
  | nil => simp
  | cons p rest ih =>
    rw [List.foldl_cons, ih, mapIndex_mapAssign]
    by_cases h1 : ∃ q ∈ rest, q.Action = a
    · have h2 : ∃ q ∈ p :: rest, q.Action = a := by
        obtain ⟨q, hq, hqa⟩ := h1
        exact ⟨q, List.mem_cons_of_mem _ hq, hqa⟩
      rw [if_pos h1, if_pos h2]
    · rw [if_neg h1]
      by_cases h3 : p.Action = a
      · have h2 : ∃ q ∈ p :: rest, q.Action = a := ⟨p, List.mem_cons_self _ _, h3⟩
        rw [if_pos h3, if_pos h2]
      · have h2 : ¬ ∃ q ∈ p :: rest, q.Action = a := by
          rintro ⟨q, hq, hqa⟩
          rcases List.mem_cons.mp hq with rfl | hq
          · exact h3 hqa
          · exact h1 ⟨q, hq, hqa⟩
        rw [if_neg h3, if_neg h2]

theorem scopesOfAction_cons (p : Permission) (rest : List Permission) (a : Str) :
    scopesOfAction (p :: rest) a
      = if p.Action = a then p.Scope :: scopesOfAction rest a else scopesOfAction rest a := by
  unfold scopesOfAction
  by_cases h : p.Action = a <;> simp [List.filter_cons, h]

theorem scopesOfAction_eq_nil_iff (perms : List Permission) (a : Str) :
    scopesOfAction perms a = [] ↔ ¬ ∃ p ∈ perms, p.Action = a := by
  unfold scopesOfAction
  simp [List.filter_eq_nil_iff]

/-- The loop of `GroupScopesByAction`, started from any map `m`: the list of `a` is the
one it had in `m` followed by the scopes the permissions give `a`. -/
theorem mapIndex_foldl_group (perms : List Permission) (m : GoMap (List Str)) (a : Str) :
    mapIndex (perms.foldl
        (fun m p => mapAssign m p.Action ((mapIndex m p.Action).getD [] ++ [p.Scope])) m) a
      = if scopesOfAction perms a = [] then mapIndex m a
        else some ((mapIndex m a).getD [] ++ scopesOfAction perms a) := by
  induction perms generalizing m with
  | nil => simp [scopesOfAction]
  | cons p rest ih =>
    rw [List.foldl_cons, ih, mapIndex_mapAssign, scopesOfAction_cons]
    by_cases hpa : p.Action = a
    · subst hpa
      simp only [if_true]
      by_cases hr : scopesOfAction rest p.Action = []
      · simp [hr]
      · simp [hr]
    · simp only [hpa, if_false]

theorem flattenGroups_cons (k : Str) (v : List Str) (rest : GoMap (List Str)) :
    flattenGroups ((k, v) :: rest) = v.map (fun scope => (k, scope)) ++ flattenGroups rest := by
  simp [flattenGroups]

/-- One step of the loop of `GroupScopesByAction` adds the pair `(k, s)` to the pairs of
the map. -/
theorem flattenGroups_assign_append (m : GoMap (List Str)) (k s : Str) :
    (flattenGroups (mapAssign m k ((mapIndex m k).getD [] ++ [s]))).Perm
      (flattenGroups m ++ [(k, s)]) := by
  induction m with
  | nil => simp [mapAssign, mapIndex, flattenGroups]
  | cons e rest ih =>
    obtain ⟨k0, v0⟩ := e
    by_cases h0 : k0 = k
    · subst h0
      simp only [mapAssign, mapIndex, if_true, Option.getD_some, flattenGroups_cons,
        List.map_append, List.map_cons, List.map_nil, List.append_assoc]
      exact List.Perm.append_left _ List.perm_append_comm
    · simp only [mapAssign, mapIndex, h0, if_false, flattenGroups_cons, List.append_assoc]
      exact List.Perm.append_left _ ih

theorem flattenGroups_foldl_group (perms : List Permission) (m : GoMap (List Str)) :
    (flattenGroups (perms.foldl
        (fun m p => mapAssign m p.Action ((mapIndex m p.Action).getD [] ++ [p.Scope])) m)).Perm
      (flattenGroups m ++ permissionPairs perms) := by
  induction perms generalizing m with
  | nil => simp [permissionPairs]
  | cons p rest ih =>
    rw [List.foldl_cons]
    refine (ih _).trans ?_
    have h := flattenGroups_assign_append m p.Action p.Scope
    have h2 : permissionPairs (p :: rest) = [(p.Action, p.Scope)] ++ permissionPairs rest := rfl
    rw [h2, ← List.append_assoc]
    exact List.Perm.append_right _ h

theorem totalScopes_eq_length (m : GoMap (List Str)) :
    totalScopes m = (flattenGroups m).length := by
  induction m with
  | nil => rfl
  | cons e rest ih =>
    obtain ⟨k0, v0⟩ := e
    rw [flattenGroups_cons, List.length_append, List.length_map, ← ih]
    simp [totalScopes]

theorem mapKeys_mapAssign {V : Type} (m : GoMap V) (k : Str) (v : V) :
    mapKeys (mapAssign m k v) = if k ∈ mapKeys m then mapKeys m else mapKeys m ++ [k] := by
  induction m with
  | nil => simp [mapAssign, mapKeys]
  | cons e rest ih =>
    obtain ⟨k0, v0⟩ := e
    have ih2 : List.map Prod.fst (mapAssign rest k v)
        = if k ∈ List.map Prod.fst rest then List.map Prod.fst rest
          else List.map Prod.fst rest ++ [k] := ih
    by_cases h0 : k0 = k
    · subst h0
      simp [mapAssign, mapKeys]
    · have h1 : ¬ k = k0 := fun h => h0 h.symm
      simp only [mapAssign, h0, if_false, mapKeys, List.map_cons, List.mem_cons, h1,
        false_or, ih2]
      split <;> simp

theorem nodup_mapKeys_mapAssign {V : Type} (m : GoMap V) (k : Str) (v : V)
    (h : (mapKeys m).Nodup) : (mapKeys (mapAssign m k v)).Nodup := by
  rw [mapKeys_mapAssign]
  split
  · exact h
  · next hk =>
    rw [List.nodup_append]
    refine ⟨h, List.nodup_singleton k, ?_⟩
    intro a ha hb
    rw [List.mem_singleton] at hb
    exact hk (hb ▸ ha)

theorem nodup_mapKeys_foldl_group (perms : List Permission) (m : GoMap (List Str))
    (h : (mapKeys m).Nodup) :
    (mapKeys (perms.foldl
        (fun m p => mapAssign m p.Action ((mapIndex m p.Action).getD [] ++ [p.Scope]))
        m)).Nodup := by
  induction perms generalizing m with
  | nil => exact h
  | cons p rest ih =>
    rw [List.foldl_cons]
    exact ih _ (nodup_mapKeys_mapAssign m p.Action _ h)

/-- An ID is a key of the result of `GetResourcesMetadata` exactly when the result gives
it some action. -/
theorem isKey_GetResourcesMetadata_iff (perms : List Permission) (r : Str)
    (resourceIDs : GoMap Bool) (x : Str) :
    (∃ md, mapIndex (GetResourcesMetadata perms r resourceIDs) x = some md) ↔
      ∃ a, hasAction (GetResourcesMetadata perms r resourceIDs) x a := by
  constructor
  · rintro ⟨md, hmd⟩
    obtain ⟨a, ha⟩ := (MetadataInv_GetResourcesMetadata perms r resourceIDs x md hmd).1
    exact ⟨a, md, hmd, ha⟩
  · rintro ⟨a, md, hmd, -⟩
    exact ⟨md, hmd⟩

/-- Two permission lists with the same members give every ID the same actions. -/
theorem hasAction_GetResourcesMetadata_congr (perms perms2 : List Permission) (r : Str)
    (resourceIDs : GoMap Bool) (hmem : ∀ e, e ∈ perms ↔ e ∈ perms2) (x a : Str) :
    hasAction (GetResourcesMetadata perms r resourceIDs) x a ↔
      hasAction (GetResourcesMetadata perms2 r resourceIDs) x a := by
  rw [hasAction_GetResourcesMetadata, hasAction_GetResourcesMetadata]
  constructor
  · rintro ⟨e, he, h⟩
    exact ⟨e, (hmem e).mp he, h⟩
  · rintro ⟨e, he, h⟩
    exact ⟨e, (hmem e).mpr he, h⟩

/-! ## The claims -/

/-- C1: the soundness claim fails on the code. With the single permission
`{A, "ds:idX2"}`, the resource kind `ds` and the batch `{"2": true}`, the result gives
the ID `2` the action `A`, although the scope is none of `*`, `ds:*`, `ds:id:*` and
`ds:id:2`: the byte after `ds:id` is skipped without being compared with `':'`. -/
theorem GetResourcesMetadata_separator_unchecked :
    mapIndex (GetResourcesMetadata [⟨bytes "A", bytes "ds:idX2"⟩] (bytes "ds")
        [(bytes "2", true)]) (bytes "2") = some [(bytes "A", true)] ∧
      ¬ ∃ p ∈ [(⟨bytes "A", bytes "ds:idX2"⟩ : Permission)], p.Action = bytes "A" ∧
        (p.Scope = bytes "*" ∨ p.Scope = bytes "ds" ++ bytes ":*"
          ∨ p.Scope = bytes "ds" ++ bytes ":id:*"
          ∨ p.Scope = bytes "ds" ++ bytes ":id:" ++ bytes "2") := by
  decide

/-- C2: if some permission has action `a` and scope `*`, `r:*` or `r:id:*`, then every
key `x` of the batch has an entry in the result in which `a` is `true`. -/
theorem GetResourcesMetadata_wildcard_complete (perms : List Permission) (r : Str)
    (resourceIDs : GoMap Bool) (a x : Str) (v : Bool)
    (hp : ∃ p ∈ perms, p.Action = a ∧
      (p.Scope = bytes "*" ∨ p.Scope = r ++ bytes ":*" ∨ p.Scope = r ++ bytes ":id:*"))
    (hx : mapIndex resourceIDs x = some v) :
    ∃ md, mapIndex (GetResourcesMetadata perms r resourceIDs) x = some md ∧
      mapIndex md a = some true := by
  obtain ⟨p, hmem, hact, hscope⟩ := hp
  have hw : p.Scope = [starB] ∨ p.Scope = GetResourceAllScope r
      ∨ p.Scope = GetResourceAllIDScope r := by
    rw [GetResourceAllScope_eq, GetResourceAllIDScope_eq]
    exact hscope
  refine (hasAction_GetResourcesMetadata perms r resourceIDs x a).mpr ⟨p, hmem, hact, ?_⟩
  unfold grants
  rw [if_pos hw]
  exact (mem_mapKeys_iff resourceIDs x).mpr ⟨v, hx⟩

theorem GetResourcesMetadata_wildcard_complete_witness :
    ∃ md, mapIndex (GetResourcesMetadata [⟨bytes "A", bytes "*"⟩] (bytes "ds")
        [(bytes "1", true), (bytes "2", true), (bytes "3", true)]) (bytes "3") = some md ∧
      mapIndex md (bytes "A") = some true :=
  GetResourcesMetadata_wildcard_complete [⟨bytes "A", bytes "*"⟩] (bytes "ds")
    [(bytes "1", true), (bytes "2", true), (bytes "3", true)] (bytes "A") (bytes "3") true
    ⟨⟨bytes "A", bytes "*"⟩, by decide, by decide, Or.inl (by decide)⟩ (by decide)

/-- C3, as stated, fails. The empty ID: with `{A, "ds:id:"}` and the batch `{"": true}`
the result has no entry for the empty ID. An ID mapped to `false`: with `{A, "ds:id:2"}`
and the batch `{"2": false}` the result has no entry for `2`. -/
theorem GetResourcesMetadata_id_scope_counterexample :
    (mapIndex [(bytes "", true)] (bytes "") = some true ∧
      (⟨bytes "A", bytes "ds" ++ bytes ":id:" ++ bytes ""⟩ : Permission)
        ∈ [(⟨bytes "A", bytes "ds:id:"⟩ : Permission)] ∧
      mapIndex (GetResourcesMetadata [⟨bytes "A", bytes "ds:id:"⟩] (bytes "ds")
        [(bytes "", true)]) (bytes "") = none) ∧
    (mapIndex [(bytes "2", false)] (bytes "2") = some false ∧
      (⟨bytes "A", bytes "ds" ++ bytes ":id:" ++ bytes "2"⟩ : Permission)
        ∈ [(⟨bytes "A", bytes "ds:id:2"⟩ : Permission)] ∧
      mapIndex (GetResourcesMetadata [⟨bytes "A", bytes "ds:id:2"⟩] (bytes "ds")
        [(bytes "2", false)]) (bytes "2") = none) := by
  decide

/-- C3, amended: for every non-empty ID `x` that the batch maps to `true`, if some
permission has action `a` and scope `r:id:x`, then the result has an entry for `x` in
which `a` is `true`. -/
theorem GetResourcesMetadata_id_scope_complete (perms : List Permission) (r : Str)
    (resourceIDs : GoMap Bool) (a x : Str)
    (hne : x ≠ [])
    (hx : mapIndex resourceIDs x = some true)
    (hp : ∃ p ∈ perms, p.Action = a ∧ p.Scope = r ++ bytes ":id:" ++ x) :
    ∃ md, mapIndex (GetResourcesMetadata perms r resourceIDs) x = some md ∧
      mapIndex md a = some true := by
  obtain ⟨p, hmem, hact, hscope⟩ := hp
  refine (hasAction_GetResourcesMetadata perms r resourceIDs x a).mpr ⟨p, hmem, hact, ?_⟩
  by_cases hw : p.Scope = [starB] ∨ p.Scope = GetResourceAllScope r
      ∨ p.Scope = GetResourceAllIDScope r
  · unfold grants
    rw [if_pos hw]
    exact (mem_mapKeys_iff resourceIDs x).mpr ⟨true, hx⟩
  · refine (grants_id_iff r resourceIDs p.Scope x hw).mpr ⟨hne, hx, colonB, ?_⟩
    rw [hscope]
    have h1 : bytes ":id:" = [58, 105, 100, 58] := by decide
    have h2 : bytes ":id" = [58, 105, 100] := by decide
    rw [h1, h2]
    simp [colonB]

theorem GetResourcesMetadata_id_scope_complete_witness :
    ∃ md, mapIndex (GetResourcesMetadata
        [⟨bytes "A", bytes "ds:id:2"⟩, ⟨bytes "B", bytes "ds:*"⟩] (bytes "ds")
        [(bytes "2", true), (bytes "5", true)]) (bytes "2") = some md ∧
      mapIndex md (bytes "A") = some true :=
  GetResourcesMetadata_id_scope_complete
    [⟨bytes "A", bytes "ds:id:2"⟩, ⟨bytes "B", bytes "ds:*"⟩] (bytes "ds")
    [(bytes "2", true), (bytes "5", true)] (bytes "A") (bytes "2")
    (by decide) (by decide) ⟨⟨bytes "A", bytes "ds:id:2"⟩, by decide, by decide, by decide⟩

/-- C4: every metadata in the result holds at least one action and every action it
holds is mapped to `true`; an ID that holds no action, and so every ID to which no
permission of the list adds an action, is not a key of the result; the empty permission
list gives the empty map. -/
theorem GetResourcesMetadata_absence_convention (perms : List Permission) (r : Str)
    (resourceIDs : GoMap Bool) :
    (∀ x md, mapIndex (GetResourcesMetadata perms r resourceIDs) x = some md →
      (∃ a, mapIndex md a = some true) ∧ ∀ a b, mapIndex md a = some b → b = true) ∧
    (∀ x, (∀ a, ¬ ∃ md, mapIndex (GetResourcesMetadata perms r resourceIDs) x = some md ∧
        mapIndex md a = some true) →
      mapIndex (GetResourcesMetadata perms r resourceIDs) x = none) ∧
    (∀ x, (∀ p ∈ perms, ¬ grants r resourceIDs p.Scope x) →
      mapIndex (GetResourcesMetadata perms r resourceIDs) x = none) ∧
    GetResourcesMetadata [] r resourceIDs = [] := by
  have hinv := MetadataInv_GetResourcesMetadata perms r resourceIDs
  have hkey : ∀ x, (∀ a, ¬ hasAction (GetResourcesMetadata perms r resourceIDs) x a) →
      mapIndex (GetResourcesMetadata perms r resourceIDs) x = none := by
    intro x hno
    cases hx : mapIndex (GetResourcesMetadata perms r resourceIDs) x with
    | none => rfl
    | some md =>
      obtain ⟨a, ha⟩ := (hinv x md hx).1
      exact absurd ⟨md, hx, ha⟩ (hno a)
  refine ⟨hinv, hkey, fun x hno => hkey x (fun a ha => ?_), rfl⟩
  obtain ⟨p, hmem, -, hg⟩ := (hasAction_GetResourcesMetadata perms r resourceIDs x a).mp ha
  exact hno p hmem hg

/-- C5, as stated, fails: `datasources:id:?` has the wildcard character `'?'` as its
last byte and `ValidateScope` returns `true` on it; the last byte is examined only when
it is `'*'`. -/
theorem ValidateScope_trailing_question_accepted :
    (bytes "datasources:id:?").getLast? = some questionB ∧
      ValidateScope (bytes "datasources:id:?") = some true := by
  decide

/-- C5, amended: a non-empty scope that contains `'*'` or `'?'` at a position other than
its last, or whose last byte is `'*'` and is preceded by a byte that is neither `':'` nor
`'/'`, is rejected. -/
theorem ValidateScope_misplaced_wildcard (s : Str) (hs : s ≠ [])
    (h : (∃ b ∈ s.dropLast, b = starB ∨ b = questionB) ∨
      (s.getLast? = some starB ∧ s.dropLast ≠ [] ∧
        s.dropLast.getLast? ≠ some colonB ∧ s.dropLast.getLast? ≠ some slashB)) :
    ValidateScope s = some false := by
  obtain ⟨hor, hiff⟩ := ValidateScope_ne_nil s hs
  rcases hor with ht | hf
  · exfalso
    obtain ⟨hpre, hlast⟩ := hiff.mp ht
    rcases h with ⟨b, hb, hbw⟩ | ⟨hl, hne, hc, hsl⟩
    · rcases hbw with hbw | hbw
      · exact (hpre b hb).1 hbw
      · exact (hpre b hb).2 hbw
    · rcases hlast hl hne with h1 | h1
      · exact hc h1
      · exact hsl h1
  · exact hf

theorem ValidateScope_misplaced_wildcard_witness :
    ValidateScope (bytes "data?sources:id:1") = some false ∧
      ValidateScope (bytes "datasources*") = some false :=
  ⟨ValidateScope_misplaced_wildcard (bytes "data?sources:id:1") (by decide)
      (Or.inl (by decide)),
   ValidateScope_misplaced_wildcard (bytes "datasources*") (by decide)
      (Or.inr (by decide))⟩

/-- C6: for a non-empty scope, `ValidateScope` returns a boolean, and it returns `true`
exactly when the bytes before the last contain neither `'*'` nor `'?'` and, if the last
byte is `'*'` and it is not the only byte, the byte before it is `':'` or `'/'`. -/
theorem ValidateScope_characterisation (s : Str) (hs : s ≠ []) :
    (ValidateScope s = some true ∨ ValidateScope s = some false) ∧
    (ValidateScope s = some true ↔
      (∀ b ∈ s.dropLast, b ≠ starB ∧ b ≠ questionB) ∧
      (s.getLast? = some starB → s.dropLast ≠ [] →
        s.dropLast.getLast? = some colonB ∨ s.dropLast.getLast? = some slashB)) :=
  ValidateScope_ne_nil s hs

theorem ValidateScope_characterisation_witness :
    ValidateScope (bytes "datasources:id:*") = some true :=
  (ValidateScope_characterisation (bytes "datasources:id:*") (by decide)).2.mpr
    ⟨by decide, by decide⟩

/-- C7: on the empty scope `ValidateScope` panics (the slice `scope[:len(scope)-1]` is
out of range) instead of returning `true`; on every scope of length one it returns
`true`. -/
theorem ValidateScope_empty_panics :
    ValidateScope (bytes "") = none ∧ ∀ b : Nat, ValidateScope [b] = some true := by
  refine ⟨by decide, fun b => ?_⟩
  have h := ValidateScope_snoc [] b
  simpa [ContainsAny] using h

/-- C8, as stated, fails: `*:*` ends in `:*` and is rejected. -/
theorem ValidateScope_suffix_counterexample :
    bytes ":*" <:+ bytes "*:*" ∧ ValidateScope (bytes "*:*") = some false := by
  decide

/-- C8, amended: a scope that ends in `:*` or `/*` and has neither `'*'` nor `'?'`
before its final `'*'` is valid. -/
theorem ValidateScope_suffix (s : Str) (hend : bytes ":*" <:+ s ∨ bytes "/*" <:+ s)
    (hpre : ∀ b ∈ s.dropLast, b ≠ starB ∧ b ≠ questionB) :
    ValidateScope s = some true := by
  have hs : s ≠ [] := by
    rintro rfl
    rcases hend with h | h <;> simp [bytes, utf8EncodeNat] at h
  refine (ValidateScope_ne_nil s hs).2.mpr ⟨hpre, fun _ _ => ?_⟩
  rcases hend with ⟨t, rfl⟩ | ⟨t, rfl⟩
  · left
    have : t ++ bytes ":*" = (t ++ [colonB]) ++ [starB] := by
      simp [bytes, utf8EncodeNat, colonB, starB]
    rw [this, List.dropLast_concat]
    simp
  · right
    have : t ++ bytes "/*" = (t ++ [slashB]) ++ [starB] := by
      simp [bytes, utf8EncodeNat, slashB, starB]
    rw [this, List.dropLast_concat]
    simp

theorem ValidateScope_suffix_witness :
    ValidateScope (bytes "datasources:*") = some true ∧
      ValidateScope (bytes "folders/*") = some true :=
  ⟨ValidateScope_suffix (bytes "datasources:*") (Or.inl (by decide)) (by decide),
   ValidateScope_suffix (bytes "folders/*") (Or.inr (by decide)) (by decide)⟩

/-- C9: a non-empty scope that contains neither `'*'` nor `'?'` is valid. -/
theorem ValidateScope_no_wildcard (s : Str) (hs : s ≠ [])
    (hw : ∀ b ∈ s, b ≠ starB ∧ b ≠ questionB) :
    ValidateScope s = some true := by
  refine (ValidateScope_ne_nil s hs).2.mpr
    ⟨fun b hb => hw b (List.mem_of_mem_dropLast hb), fun hl => ?_⟩
  have hmem : starB ∈ s := List.mem_of_getLast?_eq_some hl
  exact absurd rfl (hw starB hmem).1

theorem ValidateScope_no_wildcard_witness :
    ValidateScope (bytes "datasources:id:123") = some true :=
  ValidateScope_no_wildcard (bytes "datasources:id:123") (by decide) (by decide)

/-- C10: when access control is not disabled and `Evaluate` returns an error, `HasAccess`
and `HasGlobalAccess` return `false`, whatever boolean `Evaluate` returned with the error
and whatever the fallback would return. -/
theorem wrappers_fail_closed {σ ρ δ κ η ε : Type} (GlobalOrgID : Int)
    (ac : AccessControl σ ρ δ κ η ε) (c : ReqContext ρ δ κ ε)
    (fallback : ReqContext ρ δ κ ε → Bool) (evaluator : η) (st : σ)
    (hdis : ac.IsDisabled st = false) :
    ((ac.Evaluate st c.Req c.SignedInUser evaluator).err ≠ none →
      (HasAccess ac c fallback evaluator st).result = false) ∧
    ((ac.Evaluate st c.Req
        { c.SignedInUser with OrgId := GlobalOrgID, OrgRole := [], OrgName := [] }
        evaluator).err ≠ none →
      (HasGlobalAccess GlobalOrgID ac c fallback evaluator st).result = false) := by
  constructor
  · intro herr
    unfold HasAccess
    simp only [hdis, Bool.false_eq_true, if_false]
    split
    · rfl
    · next h => exact absurd h herr
  · intro herr
    unfold HasGlobalAccess
    simp only [hdis, Bool.false_eq_true, if_false]
    split
    · rfl
    · next h => exact absurd h herr

theorem wrappers_fail_closed_witness :
    (HasAccess failingAC sampleContext (fun _ => true) () ()).result = false ∧
      (HasGlobalAccess 0 failingAC sampleContext (fun _ => true) () ()).result = false :=
  ⟨(wrappers_fail_closed 0 failingAC sampleContext (fun _ => true) () () rfl).1 (by decide),
   (wrappers_fail_closed 0 failingAC sampleContext (fun _ => true) () () rfl).2 (by decide)⟩

/-- C11: when access control is disabled, `HasAccess` and `HasGlobalAccess` return
`fallback(c)` on the original context and leave the context and the state of the
implementation as they were; the outcome is the same whatever the `Evaluate` function
is, and an instrumented `Evaluate` records no call. -/
theorem disabled_bypasses_evaluation {σ ρ δ κ η ε : Type} (GlobalOrgID : Int)
    (ac : AccessControl σ ρ δ κ η ε) (c : ReqContext ρ δ κ ε)
    (fallback : ReqContext ρ δ κ ε → Bool) (evaluator : η) (st : σ)
    (hdis : ac.IsDisabled st = true) :
    HasAccess ac c fallback evaluator st = ⟨fallback c, c, st⟩ ∧
    HasGlobalAccess GlobalOrgID ac c fallback evaluator st = ⟨fallback c, c, st⟩ ∧
    (∀ evaluate : σ → κ → SignedInUser ρ δ → η → EvalResult σ ρ δ ε,
      HasAccess { ac with Evaluate := evaluate } c fallback evaluator st
          = HasAccess ac c fallback evaluator st ∧
        HasGlobalAccess GlobalOrgID { ac with Evaluate := evaluate } c fallback evaluator st
          = HasGlobalAccess GlobalOrgID ac c fallback evaluator st) ∧
    (HasAccess (recording ac) c fallback evaluator (st, [])).state.2 = [] ∧
    (HasGlobalAccess GlobalOrgID (recording ac) c fallback evaluator (st, [])).state.2
      = [] := by
  have hrec : (recording ac).IsDisabled (st, []) = true := hdis
  refine ⟨?_, ?_, fun evaluate => ⟨?_, ?_⟩, ?_, ?_⟩
  · simp [HasAccess, hdis]
  · simp [HasGlobalAccess, hdis]
  · simp [HasAccess, hdis]
  · simp [HasGlobalAccess, hdis]
  · simp [HasAccess, hrec]
  · simp [HasGlobalAccess, hrec]

theorem disabled_bypasses_evaluation_witness :
    HasAccess disabledAC sampleContext (fun _ => true) () ()
        = ⟨true, sampleContext, ()⟩ ∧
      HasGlobalAccess 0 disabledAC sampleContext (fun _ => true) () ()
        = ⟨true, sampleContext, ()⟩ :=
  ⟨(disabled_bypasses_evaluation 0 disabledAC sampleContext (fun _ => true) () () rfl).1,
   (disabled_bypasses_evaluation 0 disabledAC sampleContext (fun _ => true) () () rfl).2.1⟩

/-- C12, as stated, fails for the fields that are references. `cachingAC` is enabled and
its `Evaluate` writes the entry `teams:read` into the permission map of the user it is
handed; before the call the map of the caller's user has no such entry, after
`HasGlobalAccess` it has: the copy made by `userCopy := *c.SignedInUser` shares the map
with the caller's user. -/
theorem HasGlobalAccess_frame_counterexample :
    cachingAC.IsDisabled () = false ∧
    mapIndex sampleContext.SignedInUser.shared (bytes "teams:read") = none ∧
    mapIndex (HasGlobalAccess 0 cachingAC sampleContext (fun _ => false) () ()).c.SignedInUser.shared
      (bytes "teams:read") = some [bytes "teams:*"] := by
  decide

/-- C12, amended: when access control is not disabled, `HasGlobalAccess` calls `Evaluate`
once, on a user whose `OrgId` is `GlobalOrgID`, whose `OrgRole` and `OrgName` are empty
and which agrees with `c.SignedInUser` on every other field and on the data behind its
references; after the call the user of `c` has the `OrgId`, `OrgRole`, `OrgName` and the
value of every other field it had before, whatever `Evaluate` did to the fields of the
user it was handed; the data behind its references, shared with the copy, is as
`Evaluate` left it. -/
theorem HasGlobalAccess_derived_identity {σ ρ δ κ η ε : Type} (GlobalOrgID : Int)
    (ac : AccessControl σ ρ δ κ η ε) (c : ReqContext ρ δ κ ε)
    (fallback : ReqContext ρ δ κ ε → Bool) (evaluator : η) (st : σ)
    (hdis : ac.IsDisabled st = false) :
    (∃ u : SignedInUser ρ δ,
      (HasGlobalAccess GlobalOrgID (recording ac) c fallback evaluator (st, [])).state.2
          = [(c.Req, u, evaluator)] ∧
        u.OrgId = GlobalOrgID ∧ u.OrgRole = [] ∧ u.OrgName = [] ∧
        u.rest = c.SignedInUser.rest ∧ u.shared = c.SignedInUser.shared) ∧
    ((HasGlobalAccess GlobalOrgID ac c fallback evaluator st).c.SignedInUser.OrgId
        = c.SignedInUser.OrgId ∧
      (HasGlobalAccess GlobalOrgID ac c fallback evaluator st).c.SignedInUser.OrgRole
        = c.SignedInUser.OrgRole ∧
      (HasGlobalAccess GlobalOrgID ac c fallback evaluator st).c.SignedInUser.OrgName
        = c.SignedInUser.OrgName ∧
      (HasGlobalAccess GlobalOrgID ac c fallback evaluator st).c.SignedInUser.rest
        = c.SignedInUser.rest) ∧
    (HasGlobalAccess GlobalOrgID ac c fallback evaluator st).c.SignedInUser.shared
      = (ac.Evaluate st c.Req
          { c.SignedInUser with OrgId := GlobalOrgID, OrgRole := [], OrgName := [] }
          evaluator).user.shared := by
  have hrec : (recording ac).IsDisabled (st, []) = false := hdis
  refine ⟨?_, ?_, ?_⟩
  · refine ⟨{ c.SignedInUser with OrgId := GlobalOrgID, OrgRole := [], OrgName := [] },
      ?_, rfl, rfl, rfl, rfl, rfl⟩
    unfold HasGlobalAccess
    simp only [hrec, Bool.false_eq_true, if_false]
    split <;> simp [recording]
  · unfold HasGlobalAccess
    simp only [hdis, Bool.false_eq_true, if_false]
    split <;> exact ⟨rfl, rfl, rfl, rfl⟩
  · unfold HasGlobalAccess
    simp only [hdis, Bool.false_eq_true, if_false]
    split <;> rfl

theorem HasGlobalAccess_derived_identity_witness :
    (HasGlobalAccess 0 overwritingAC sampleContext (fun _ => false) () ()).c.SignedInUser.OrgId
        = 1 ∧
      (HasGlobalAccess 0 overwritingAC sampleContext (fun _ => false) () ()).c.SignedInUser.OrgRole
        = bytes "Admin" ∧
      (HasGlobalAccess 0 overwritingAC sampleContext (fun _ => false) () ()).c.SignedInUser.OrgName
        = bytes "Main Org." ∧
      (HasGlobalAccess 0 overwritingAC sampleContext (fun _ => false) () ()).c.SignedInUser.rest
        = () :=
  (HasGlobalAccess_derived_identity 0 overwritingAC sampleContext (fun _ => false) () ()
    rfl).2.1

/-- C13: looking up `a` in `BuildPermissionsMap(perms)` yields `true` exactly when some
permission of `perms` has action `a`, and no key of the map is mapped to `false`. -/
theorem BuildPermissionsMap_lookup (perms : List Permission) (a : Str) :
    (mapIndexBool (BuildPermissionsMap perms) a = true ↔ ∃ p ∈ perms, p.Action = a) ∧
    (mapIndex (BuildPermissionsMap perms) a = some true ↔ ∃ p ∈ perms, p.Action = a) ∧
    mapIndex (BuildPermissionsMap perms) a ≠ some false := by
  have h := mapIndex_foldl_assign_true perms [] a
  have hm : mapIndex (BuildPermissionsMap perms) a
      = if ∃ p ∈ perms, p.Action = a then some true else none := h
  by_cases hp : ∃ p ∈ perms, p.Action = a
  · rw [if_pos hp] at hm
    refine ⟨?_, ?_, ?_⟩
    · rw [mapIndexBool_eq_true, hm]
      exact ⟨fun _ => hp, fun _ => rfl⟩
    · rw [hm]
      exact ⟨fun _ => hp, fun _ => rfl⟩
    · rw [hm]
      simp
  · rw [if_neg hp] at hm
    refine ⟨?_, ?_, ?_⟩
    · rw [mapIndexBool_eq_true, hm]
      exact ⟨fun h => (by cases h), fun h => absurd h hp⟩
    · rw [hm]
      exact ⟨fun h => (by cases h), fun h => absurd h hp⟩
    · rw [hm]
      simp

/-- C16: the code does not treat a key mapped to `false` uniformly. With the resource
kind `ds` and the batch `{"2": false}`, the permission `{A, "*"}` gives the ID `2` the
entry `{A: true}`, and the permission `{A, "ds:id:2"}` gives it no entry. -/
theorem GetResourcesMetadata_false_key_not_uniform :
    mapIndex [(bytes "2", false)] (bytes "2") = some false ∧
    mapIndex (GetResourcesMetadata [⟨bytes "A", bytes "*"⟩] (bytes "ds")
        [(bytes "2", false)]) (bytes "2") = some [(bytes "A", true)] ∧
    mapIndex (GetResourcesMetadata [⟨bytes "A", bytes "ds" ++ bytes ":id:" ++ bytes "2"⟩]
        (bytes "ds") [(bytes "2", false)]) (bytes "2") = none := by
  decide

/-- C18: when access control is not disabled and `Evaluate` returns `(b, nil)`,
`HasAccess` returns `b`; `Evaluate` is called once, with the context of the request, the
user of `c` as it is and the given evaluator; the outcome is the same for every
fallback. -/
theorem HasAccess_passes_decision {σ ρ δ κ η ε : Type}
    (ac : AccessControl σ ρ δ κ η ε) (c : ReqContext ρ δ κ ε)
    (fallback : ReqContext ρ δ κ ε → Bool) (evaluator : η) (st : σ) (b : Bool)
    (hdis : ac.IsDisabled st = false)
    (hb : (ac.Evaluate st c.Req c.SignedInUser evaluator).hasAccess = b)
    (herr : (ac.Evaluate st c.Req c.SignedInUser evaluator).err = none) :
    (HasAccess ac c fallback evaluator st).result = b ∧
    (HasAccess (recording ac) c fallback evaluator (st, [])).state.2
      = [(c.Req, c.SignedInUser, evaluator)] ∧
    ∀ fallback2 : ReqContext ρ δ κ ε → Bool,
      HasAccess ac c fallback2 evaluator st = HasAccess ac c fallback evaluator st := by
  have hrec : (recording ac).IsDisabled (st, []) = false := hdis
  refine ⟨?_, ?_, fun fallback2 => ?_⟩
  · unfold HasAccess
    simp only [hdis, Bool.false_eq_true, if_false, herr]
    exact hb
  · unfold HasAccess
    simp only [hrec, Bool.false_eq_true, if_false]
    split <;> simp [recording]
  · unfold HasAccess
    simp only [hdis, Bool.false_eq_true, if_false]

theorem HasAccess_passes_decision_witness :
    (HasAccess overwritingAC sampleContext (fun _ => false) () ()).result = true :=
  (HasAccess_passes_decision overwritingAC sampleContext (fun _ => false) () () true
    rfl rfl rfl).1

/-- C14: `GroupScopesByAction(perms)[a]` is the list of the scopes of the permissions of
`perms` whose action is `a`, in input order and with duplicates kept; an action of no
permission is not a key, and no key is mapped to the empty list. -/
theorem GroupScopesByAction_lookup (perms : List Permission) (a : Str) :
    ((∃ p ∈ perms, p.Action = a) →
      mapIndex (GroupScopesByAction perms) a = some (scopesOfAction perms a)) ∧
    ((¬ ∃ p ∈ perms, p.Action = a) → mapIndex (GroupScopesByAction perms) a = none) ∧
    (mapIndex (GroupScopesByAction perms) a).getD [] = scopesOfAction perms a ∧
    mapIndex (GroupScopesByAction perms) a ≠ some [] := by
  have h : mapIndex (GroupScopesByAction perms) a
      = if scopesOfAction perms a = [] then none
        else some (scopesOfAction perms a) := by
    have h0 := mapIndex_foldl_group perms [] a
    simpa [mapIndex] using h0
  by_cases hn : scopesOfAction perms a = []
  · have hno := (scopesOfAction_eq_nil_iff perms a).mp hn
    rw [if_pos hn] at h
    refine ⟨fun hp => absurd hp hno, fun _ => h, ?_, ?_⟩
    · rw [h, hn]
      rfl
    · rw [h]
      simp
  · have hex : ∃ p ∈ perms, p.Action = a := by
      by_contra hc
      exact hn ((scopesOfAction_eq_nil_iff perms a).mpr hc)
    rw [if_neg hn] at h
    refine ⟨fun _ => h, fun hno => absurd hex hno, ?_, ?_⟩
    · rw [h]
      rfl
    · rw [h]
      intro hc
      exact hn (Option.some.inj hc)

/-- C15: flattening `GroupScopesByAction(perms)` into (action, scope) pairs gives a
permutation of the (action, scope) pairs of `perms`, that is the same multiset; the
total number of scopes over all keys is `len(perms)`; the keys of the map are
distinct. -/
theorem GroupScopesByAction_round_trip (perms : List Permission) :
    (flattenGroups (GroupScopesByAction perms)).Perm (permissionPairs perms) ∧
    ((flattenGroups (GroupScopesByAction perms) : Multiset (Str × Str))
      = (permissionPairs perms : Multiset (Str × Str))) ∧
    totalScopes (GroupScopesByAction perms) = perms.length ∧
    (mapKeys (GroupScopesByAction perms)).Nodup := by
  have hperm : (flattenGroups (GroupScopesByAction perms)).Perm (permissionPairs perms) := by
    have h := flattenGroups_foldl_group perms []
    simpa [flattenGroups] using h
  refine ⟨hperm, Multiset.coe_eq_coe.mpr hperm, ?_, ?_⟩
  · rw [totalScopes_eq_length, hperm.length_eq]
    simp [permissionPairs]
  · exact nodup_mapKeys_foldl_group perms [] List.nodup_nil

/-- C17: the result for `p ++ q` gives each ID exactly the actions that the result for
`p` or the result for `q` gives it, and an ID is a key of it exactly when it is a key of
one of the two; every stored action is `true`; so two permission lists with the same
members, in any order and with any repetitions, give the same keys and actions. -/
theorem GetResourcesMetadata_union (p q : List Permission) (r : Str)
    (resourceIDs : GoMap Bool) :
    (∀ x a, hasAction (GetResourcesMetadata (p ++ q) r resourceIDs) x a ↔
      hasAction (GetResourcesMetadata p r resourceIDs) x a ∨
        hasAction (GetResourcesMetadata q r resourceIDs) x a) ∧
    (∀ x, (∃ md, mapIndex (GetResourcesMetadata (p ++ q) r resourceIDs) x = some md) ↔
      (∃ md, mapIndex (GetResourcesMetadata p r resourceIDs) x = some md) ∨
        (∃ md, mapIndex (GetResourcesMetadata q r resourceIDs) x = some md)) ∧
    (∀ (perms : List Permission) x md a b,
      mapIndex (GetResourcesMetadata perms r resourceIDs) x = some md →
        mapIndex md a = some b → b = true) ∧
    (∀ perms perms2 : List Permission, (∀ e, e ∈ perms ↔ e ∈ perms2) →
      (∀ x a, hasAction (GetResourcesMetadata perms r resourceIDs) x a ↔
        hasAction (GetResourcesMetadata perms2 r resourceIDs) x a) ∧
      (∀ x, (∃ md, mapIndex (GetResourcesMetadata perms r resourceIDs) x = some md) ↔
        ∃ md, mapIndex (GetResourcesMetadata perms2 r resourceIDs) x = some md)) := by
  have hunion : ∀ x a, hasAction (GetResourcesMetadata (p ++ q) r resourceIDs) x a ↔
      hasAction (GetResourcesMetadata p r resourceIDs) x a ∨
        hasAction (GetResourcesMetadata q r resourceIDs) x a := by
    intro x a
    simp only [hasAction_GetResourcesMetadata, List.mem_append]
    constructor
    · rintro ⟨e, he | he, h⟩
      · exact Or.inl ⟨e, he, h⟩
      · exact Or.inr ⟨e, he, h⟩
    · rintro (⟨e, he, h⟩ | ⟨e, he, h⟩)
      · exact ⟨e, Or.inl he, h⟩
      · exact ⟨e, Or.inr he, h⟩
  refine ⟨hunion, fun x => ?_, fun perms x md a b hmd hb => ?_, fun perms perms2 hmem => ?_⟩
  · simp only [isKey_GetResourcesMetadata_iff, hunion]
    constructor
    · rintro ⟨a, h | h⟩
      · exact Or.inl ⟨a, h⟩
      · exact Or.inr ⟨a, h⟩
    · rintro (⟨a, h⟩ | ⟨a, h⟩)
      · exact ⟨a, Or.inl h⟩
      · exact ⟨a, Or.inr h⟩
  · exact (MetadataInv_GetResourcesMetadata perms r resourceIDs x md hmd).2 a b hb
  · have hact := hasAction_GetResourcesMetadata_congr perms perms2 r resourceIDs hmem
    refine ⟨hact, fun x => ?_⟩
    simp only [isKey_GetResourcesMetadata_iff, hact]

end Grafana
